import Mathlib

/-
Verification of the windowed elliptic-curve scalar-multiplication gadget
in `src/circuit/ecc/general_ecc/mul.rs` (halo2wrong, general ECC chip).

Modelling choices:
* Assigned curve points are modelled as elements of an arbitrary additive
  commutative group `G`; the external point primitives (`add`, `double`,
  `double_n`, `select`, `ladder`) are modelled by their stated contracts
  (section 6 of the specification).
* Boolean wires are `Bool`; an `AssignedInteger` scalar is a natural number
  together with the bit width `numBits` (`Emulated::ScalarExt::NUM_BITS`).
* Rust panics (`assert!`, out-of-bounds indexing, `% 0`) are modelled as
  `Option.none`; the `Result` error channel of the primitives is assumed
  never to fire (their contracts hold), so `none` is exactly "fatal".
* The constraint-system `Region` and row offset only sequence constraint
  emission; they do not influence any assigned value, so value-level
  functions drop them.  The schedule of accumulator operations in the
  double-and-add sweep is kept observable by parametrising the sweep over
  the accumulator operations (`SweepOps`), which are instantiated once with
  the value semantics and once with a trace semantics.
-/

namespace HaloEcc

/-- Value of a bit list read least-significant-bit first. -/
def leVal : List Bool → ℕ
  | [] => 0
  | b :: rest => b.toNat + 2 * leVal rest

/-- Value of a bit list read as a big-endian (most-significant-first) number. -/
def beVal (bits : List Bool) : ℕ := leVal bits.reverse

/-- Modelled from the spec: the external `scalar_field_chip().decompose`
primitive (section 6), which returns the scalar's full binary expansion as
`numBits` boolean wires, least-significant bit first.  (The spec's §4.1
padding contract — zeros appended at the end land at the most-significant
end, and the reversed result reads big-endian — forces this bit order.) -/
def decompose : ℕ → ℕ → List Bool
  | 0, _ => []
  | n + 1, s => decide (s % 2 = 1) :: decompose n (s / 2)

/-- Embedding of `GeneralEccChip::pad` (mul.rs lines 11–24): asserts the
decomposed length equals `numBits`, appends constant-zero wires until the
length is a multiple of `window_size`, then reverses the sequence.
`none` models the `assert_eq!` panic and the `% 0` panic when
`window_size = 0`. -/
def pad (numBits : ℕ) (bits : List Bool) (window_size : ℕ) : Option (List Bool) :=
  if bits.length = numBits ∧ 0 < window_size then
    some ((bits ++ List.replicate
      ((window_size - bits.length % window_size) % window_size) false).reverse)
  else none

/-- Embedding of `GeneralEccChip::window` (mul.rs lines 26–38): asserts the
bit length is a multiple of `window_size`, then maps window index `i` to the
slice `bits[i*window_size .. (i+1)*window_size]` reversed.  `none` models
the `assert_eq!` panic and the `% 0` panic when `window_size = 0`. -/
def window (bits : List Bool) (window_size : ℕ) : Option (List (List Bool)) :=
  if 0 < window_size ∧ bits.length % window_size = 0 then
    some ((List.range (bits.length / window_size)).map
      fun i => ((bits.drop (i * window_size)).take window_size).reverse)
  else none

/-- Recursive form of the chunk list produced by `window`; used in proofs. -/
def chunks (window_size : ℕ) : ℕ → List Bool → List (List Bool)
  | 0, _ => []
  | m + 1, bits =>
      (bits.take window_size).reverse :: chunks window_size m (bits.drop window_size)

/-- One pairwise reduction round of the selection network: selector bit `1`
picks the odd-indexed (higher) candidate of each adjacent pair, `0` the
even-indexed one.  The source updates `reducer` in place, but each round
writes only to indices below those it still reads, so the in-place pass is
the same as producing the halved list. -/
def selectRound {α : Type} (b : Bool) : List α → List α
  | x :: y :: rest => (if b then y else x) :: selectRound b rest
  | _ => []

/-- Embedding of `GeneralEccChip::select_multi` (mul.rs lines 56–70):
asserts `table.len() == 2^selector.len()`, then runs one reduction round per
selector bit, in selector order, and returns the remaining candidate. -/
def select_multi {α : Type} (selector : List Bool) (table : List α) : Option α :=
  if table.length = 2 ^ selector.length then
    (selector.foldl (fun l b => selectRound b l) table).head?
  else none

section Group

variable {G : Type} [AddCommGroup G]

/-- Modelled from the spec: the external point-doubling primitive `double`
(section 6), `double(p) = 2·p`. -/
def double (p : G) : G := p + p

/-- Modelled from the spec: the external primitive `double_n` (section 6),
`double_n(p, n) = 2^n·p`, i.e. `n` successive doublings. -/
def double_n (p : G) : ℕ → G
  | 0 => p
  | n + 1 => double_n (double p) n

/-- Modelled from the spec: the external combined double-and-add primitive
`ladder` (section 6), `ladder(acc, addend) = 2·acc + addend`. -/
def ladder (acc addend : G) : G := double acc + addend

/-- Embedding of the loop body of `make_incremental_table` (mul.rs lines
40–54): starting from `last`, push `last + point` a given number of times,
each new entry being the previous entry plus `point`. -/
def incFrom (point : G) : G → ℕ → List G
  | _, 0 => []
  | last, m + 1 => (last + point) :: incFrom point (last + point) m

/-- Embedding of `GeneralEccChip::make_incremental_table` (mul.rs lines
40–54): the table starts at `aux` and is extended by `2^window_size - 1`
chained point additions of `point`. -/
def make_incremental_table (aux point : G) (window_size : ℕ) : List G :=
  aux :: incFrom point aux (2 ^ window_size - 1)

end Group

/-- Accumulator operations of `mul`'s double-and-add sweep.  The source
threads every point primitive through the chip; parametrising the sweep over
the operations applied to the accumulator lets the same sweep be read both
with the value semantics and with an operation-trace semantics. -/
structure SweepOps (G A : Type) where
  init : G → A
  double_n : A → ℕ → A
  add : A → G → A
  ladder : A → G → A

/-- Embedding of the sweep of `GeneralEccChip::mul` (mul.rs lines 89–99):
initialise the accumulator from the first window's selection, apply
`double_n window_size` and a plain `add` of the second window's selection,
then for every remaining window apply `double_n (window_size - 1)` followed
by a `ladder` step with that window's selection.  `none` models the panic of
the out-of-bounds indexing `windowed.0[1]` when fewer than two windows
exist. -/
def sweep {G A : Type} (ops : SweepOps G A) (window_size : ℕ) (table : List G)
    (windowed : List (List Bool)) : Option A := do
  let s0 ← windowed[0]?
  let a0 ← select_multi s0 table
  let acc := ops.double_n (ops.init a0) window_size
  let s1 ← windowed[1]?
  let t1 ← select_multi s1 table
  let acc := ops.add acc t1
  (windowed.drop 2).foldlM
    (fun acc sel => do
      let acc := ops.double_n acc (window_size - 1)
      let t ← select_multi sel table
      pure (ops.ladder acc t))
    acc

/-- One accumulator operation of the sweep, for the trace semantics. -/
inductive Op : Type where
  | double_n (n : ℕ) : Op
  | add : Op
  | ladder : Op
deriving DecidableEq, Repr

section Group2

variable {G : Type} [AddCommGroup G]

/-- Value semantics of the sweep operations: each primitive is replaced by
its stated contract. -/
def valueOps : SweepOps G G :=
  ⟨fun g => g, double_n, fun a t => a + t, ladder⟩

/-- Trace semantics of the sweep operations: the accumulator carries the
value together with the list of operations applied to it, in order. -/
def traceOps : SweepOps G (G × List Op) :=
  ⟨fun g => (g, []),
   fun a n => (double_n a.1 n, a.2 ++ [Op.double_n n]),
   fun a t => (a.1 + t, a.2 ++ [Op.add]),
   fun a t => (ladder a.1 t, a.2 ++ [Op.ladder])⟩

/-- Embedding of `GeneralEccChip::mul` (mul.rs lines 72–102).
`auxToAdd`/`auxToSub` stand for the pair returned by the external
`get_mul_aux(window_size, 1)`.  `none` models the `assert!(window_size > 0)`
panic and every panic of the callees. -/
def mul (numBits : ℕ) (point : G) (scalar : ℕ) (window_size : ℕ)
    (auxToAdd auxToSub : G) : Option G :=
  if 0 < window_size then do
    let decomposed := decompose numBits scalar
    let bits ← pad numBits decomposed window_size
    let windowed ← window bits window_size
    let table := make_incremental_table auxToAdd point window_size
    let acc ← sweep valueOps window_size table windowed
    pure (acc + auxToSub)
  else none

/-- Embedding of the per-pair table construction of
`mul_batch_1d_horizontal` (mul.rs lines 131–142): the first table is rooted
at the running auxiliary base, which is doubled before rooting each
following table.  (The source skips the final double of `binary_aux`, whose
result is never used; the recursion doubles unconditionally, which is
observationally identical.) -/
def buildTables (base : G) (window_size : ℕ) : List (G × ℕ) → List (List G)
  | [] => []
  | (point, _) :: rest =>
      make_incremental_table base point window_size ::
        buildTables (double base) window_size rest

/-- Embedding of `GeneralEccChip::mul_batch_1d_horizontal` (mul.rs lines
104–164).  `auxToAdd`/`auxToSub` stand for the pair returned by the external
`get_mul_aux(window_size, pairs.len())`.  `none` models the two leading
`assert!`s and every panic of the callees (including the indexing
`windowed.0[i]`, modelled with `[·]?`). -/
def mul_batch_1d_horizontal (numBits : ℕ) (pairs : List (G × ℕ))
    (window_size : ℕ) (auxToAdd auxToSub : G) : Option G :=
  if 0 < window_size ∧ 0 < pairs.length then do
    let decomposedScalars := pairs.map fun pr => decompose numBits pr.2
    let paddedScalars ← decomposedScalars.mapM fun bits => pad numBits bits window_size
    let windowedScalars ← paddedScalars.mapM fun bits => window bits window_size
    let firstWindowed ← windowedScalars[0]?
    let numberOfWindows := firstWindowed.length
    let tables := buildTables auxToAdd window_size pairs
    let firstSelector ← firstWindowed[0]?
    let firstTable ← tables[0]?
    let acc ← select_multi firstSelector firstTable
    let acc ← ((tables.drop 1).zip (windowedScalars.drop 1)).foldlM
      (fun acc tw => do
        let sel ← tw.2[0]?
        let t ← select_multi sel tw.1
        pure (acc + t))
      acc
    let acc ← (List.range' 1 (numberOfWindows - 1)).foldlM
      (fun acc i => do
        let acc := double_n acc window_size
        (tables.zip windowedScalars).foldlM
          (fun acc tw => do
            let sel ← tw.2[i]?
            let t ← select_multi sel tw.1
            pure (acc + t))
          acc)
      acc
    pure (acc + auxToSub)
  else none

end Group2

/-- Number of windows of the padded scalar: `⌈numBits / window_size⌉`. -/
def nWin (numBits window_size : ℕ) : ℕ := (numBits + window_size - 1) / window_size

/-- Modelled from the spec: the blinding weight accumulated by the sweep,
`Σ_{j < n} 2^(window_size·j)`.  The contract of the external `get_mul_aux`
(sections 3 and 6: subtracting `to_sub` at the end exactly cancels all the
blinding introduced via `to_add`) is that for batch size `b` it returns a
pair with `to_sub = -((blindSum w n · (2^b - 1)) • to_add)`, where `n` is
the number of windows. -/
def blindSum (window_size : ℕ) : ℕ → ℕ
  | 0 => 0
  | n + 1 => 2 ^ (window_size * n) + blindSum window_size n

/-- The value contributed by a list of window selectors, most-significant
window first, each selector read least-significant-bit first. -/
def windowsVal (w : ℕ) : List (List Bool) → ℕ
  | [] => 0
  | sel :: rest => 2 ^ (w * rest.length) * leVal sel + windowsVal w rest

/-- The padded bit sequence of a scalar, as produced by `pad` on the
decomposition: big-endian, length `window_size * nWin`. -/
def paddedOf (numBits window_size s : ℕ) : List Bool :=
  (decompose numBits s ++
    List.replicate ((window_size - numBits % window_size) % window_size) false).reverse

/-- The window selectors of a scalar, as produced by `window` on the padded
sequence: most-significant window first, each selector least-significant-bit
first. -/
def windowsOf (numBits window_size s : ℕ) : List (List Bool) :=
  chunks window_size (nWin numBits window_size) (paddedOf numBits window_size s)

/-- The value selected for window `i` of a scalar. -/
def winVal (numBits window_size s i : ℕ) : ℕ :=
  leVal ((windowsOf numBits window_size s).getD i [])

/-- `Σ_{j<m} 2^(w*(m-1-j)) * f (a+j)`, recursively. -/
def natWeight (w : ℕ) (f : ℕ → ℕ) : ℕ → ℕ → ℕ
  | _, 0 => 0
  | a, m + 1 => 2 ^ (w * m) * f a + natWeight w f (a + 1) m

section Group3

variable {G : Type} [AddCommGroup G]

/-- What one window contributes across all pairs: pair `p`'s table is rooted
at `2^p` times the running base, which doubles from pair to pair. -/
def rowSum (numBits w i : ℕ) (b : G) : List (G × ℕ) → G
  | [] => 0
  | (pt, s) :: rest => (b + winVal numBits w s i • pt) + rowSum numBits w i (double b) rest

/-- The non-blinding part of `rowSum`. -/
def pairsWinSum (numBits w i : ℕ) : List (G × ℕ) → G
  | [] => 0
  | (pt, s) :: rest => winVal numBits w s i • pt + pairsWinSum numBits w i rest

/-- `Σ_{j<m} 2^(w*(m-1-j)) • S (a+j)`, recursively. -/
def wSumIdx (w : ℕ) (S : ℕ → G) : ℕ → ℕ → G
  | _, 0 => 0
  | a, m + 1 => 2 ^ (w * m) • S a + wSumIdx w S (a + 1) m

end Group3

/-! ### Bit-value lemmas -/

theorem leVal_append (l₁ l₂ : List Bool) :
    leVal (l₁ ++ l₂) = leVal l₁ + 2 ^ l₁.length * leVal l₂ := by
  induction l₁ with
  | nil => simp [leVal]
  | cons b rest ih =>
      simp only [List.cons_append, leVal, List.length_cons, List.append_eq]
      rw [ih, pow_succ]
      ring

theorem leVal_replicate_false (k : ℕ) : leVal (List.replicate k false) = 0 := by
  induction k with
  | zero => rfl
  | succ k ih => simp [List.replicate_succ, leVal, ih]

theorem leVal_lt (l : List Bool) : leVal l < 2 ^ l.length := by
  induction l with
  | nil => simp [leVal]
  | cons b rest ih =>
      have hb : b.toNat ≤ 1 := Bool.toNat_le b
      simp only [leVal, List.length_cons, pow_succ]
      omega

theorem decompose_length (n s : ℕ) : (decompose n s).length = n := by
  induction n generalizing s with
  | zero => rfl
  | succ n ih => simp [decompose, ih]

theorem leVal_decompose (n s : ℕ) : leVal (decompose n s) = s % 2 ^ n := by
  induction n generalizing s with
  | zero => simp [decompose, leVal, Nat.mod_one]
  | succ n ih =>
      simp only [decompose, leVal, ih]
      rw [pow_succ, mul_comm (2 ^ n) 2, Nat.mod_mul]
      rcases Nat.mod_two_eq_zero_or_one s with h | h <;> simp [h]

theorem beVal_reverse (l : List Bool) : beVal l.reverse = leVal l := by
  simp [beVal]

theorem beVal_append (l₁ l₂ : List Bool) :
    beVal (l₁ ++ l₂) = 2 ^ l₂.length * beVal l₁ + beVal l₂ := by
  simp [beVal, List.reverse_append, leVal_append]
  ring

/-! ### Padding -/

theorem pad_eq (numBits : ℕ) (bits : List Bool) (w : ℕ) (hw : 0 < w)
    (hlen : bits.length = numBits) :
    pad numBits bits w =
      some ((bits ++ List.replicate ((w - bits.length % w) % w) false).reverse) := by
  simp [pad, hlen, hw]

theorem padded_length (numBits w : ℕ) (hw : 0 < w) :
    numBits + (w - numBits % w) % w = w * nWin numBits w := by
  have hdm := Nat.div_add_mod numBits w
  set q := numBits / w with hq
  set r := numBits % w with hr
  have hrlt : r < w := Nat.mod_lt _ hw
  rcases Nat.eq_zero_or_pos r with hr0 | hr0
  · have h1 : numBits + w - 1 = w * q + (w - 1) := by omega
    have h2 : nWin numBits w = q := by
      simp only [nWin, h1, Nat.mul_add_div hw, Nat.div_eq_of_lt (show w - 1 < w by omega),
        Nat.add_zero]
    rw [h2, hr0, Nat.sub_zero, Nat.mod_self]
    omega
  · have hq1 : w * (q + 1) = w * q + w := by ring
    have h1 : numBits + w - 1 = w * (q + 1) + (r - 1) := by omega
    have h2 : nWin numBits w = q + 1 := by
      simp only [nWin, h1, Nat.mul_add_div hw, Nat.div_eq_of_lt (show r - 1 < w by omega),
        Nat.add_zero]
    rw [h2, Nat.mod_eq_of_lt (show w - r < w by omega)]
    omega

/-! ### Windowing -/

theorem chunks_length (w : ℕ) : ∀ (m : ℕ) (bits : List Bool), (chunks w m bits).length = m := by
  intro m
  induction m with
  | zero => intro bits; rfl
  | succ m ih => intro bits; simp [chunks, ih]

theorem range_map_chunks (w : ℕ) : ∀ (m : ℕ) (bits : List Bool), bits.length = m * w →
    (List.range m).map (fun i => ((bits.drop (i * w)).take w).reverse) = chunks w m bits := by
  intro m
  induction m with
  | zero => intro bits _; simp [chunks]
  | succ m ih =>
      intro bits h
      rw [List.range_succ_eq_map, List.map_cons, List.map_map]
      simp only [Nat.zero_mul, List.drop_zero, chunks]
      congr 1
      have hfun : ((fun i => ((bits.drop (i * w)).take w).reverse) ∘ Nat.succ) =
          (fun i => (((bits.drop w).drop (i * w)).take w).reverse) := by
        funext i
        simp only [Function.comp_apply, List.drop_drop]
        congr 3
        simp only [Nat.succ_eq_add_one]
        ring
      rw [hfun]
      apply ih
      have h2 : (m + 1) * w = m * w + w := by ring
      simp only [List.length_drop]
      omega

theorem window_eq_chunks (bits : List Bool) (w m : ℕ) (hw : 0 < w)
    (h : bits.length = m * w) :
    window bits w = some (chunks w m bits) := by
  have hmod : bits.length % w = 0 := by
    rw [h]
    exact Nat.mul_mod_left m w
  have hdiv : bits.length / w = m := by
    rw [h]
    exact Nat.mul_div_cancel m hw
  simp only [window, hw, hmod, and_self, if_true, hdiv, range_map_chunks w m bits h]

theorem chunks_mem_length (w : ℕ) : ∀ (m : ℕ) (bits : List Bool), bits.length = m * w →
    ∀ sel ∈ chunks w m bits, sel.length = w := by
  intro m
  induction m with
  | zero => intro bits _ sel hsel; simp [chunks] at hsel
  | succ m ih =>
      intro bits h sel hsel
      have h2 : (m + 1) * w = m * w + w := by ring
      simp only [chunks, List.mem_cons] at hsel
      rcases hsel with rfl | hsel
      · simp only [List.length_reverse, List.length_take]
        omega
      · exact ih (bits.drop w) (by simp only [List.length_drop]; omega) sel hsel

theorem chunks_getElem? (w : ℕ) : ∀ (m : ℕ) (bits : List Bool) (i : ℕ), i < m →
    (chunks w m bits)[i]? = some (((bits.drop (i * w)).take w).reverse) := by
  intro m
  induction m with
  | zero => intro bits i hi; omega
  | succ m ih =>
      intro bits i hi
      cases i with
      | zero => simp [chunks]
      | succ i =>
          simp only [chunks, List.getElem?_cons_succ]
          rw [ih (bits.drop w) i (by omega), List.drop_drop,
            show w + i * w = (i + 1) * w from by ring]

theorem windowsVal_chunks (w : ℕ) : ∀ (m : ℕ) (bits : List Bool), bits.length = m * w →
    windowsVal w (chunks w m bits) = beVal bits := by
  intro m
  induction m with
  | zero =>
      intro bits h
      have : bits = [] := List.length_eq_zero.mp (by omega)
      subst this
      simp [chunks, windowsVal, beVal, leVal]
  | succ m ih =>
      intro bits h
      have h2 : (m + 1) * w = m * w + w := by ring
      have hdl : (bits.drop w).length = m * w := by
        simp only [List.length_drop]
        omega
      simp only [chunks, windowsVal, chunks_length, beVal_reverse, ih (bits.drop w) hdl]
      conv_rhs => rw [← List.take_append_drop w bits]
      rw [beVal_append, hdl]
      simp only [beVal, Nat.mul_comm w m]

/-! ### Selection network -/

theorem selectRound_length {α : Type} (b : Bool) :
    ∀ l : List α, (selectRound b l).length = l.length / 2
  | [] => by simp [selectRound]
  | [x] => by simp [selectRound]
  | x :: y :: rest => by
      simp only [selectRound, List.length_cons, selectRound_length b rest]
      omega

theorem selectRound_getElem? {α : Type} (b : Bool) :
    ∀ (l : List α) (j : ℕ), 2 * j + 1 < l.length →
      (selectRound b l)[j]? = l[2 * j + b.toNat]?
  | [], j, h => by simp at h
  | [x], j, h => by simp at h
  | x :: y :: rest, 0, h => by
      cases b <;> simp [selectRound]
  | x :: y :: rest, j + 1, h => by
      have hr : 2 * j + 1 < rest.length := by
        simp only [List.length_cons] at h
        omega
      have h2 : 2 * (j + 1) + b.toNat = 2 * j + b.toNat + 1 + 1 := by omega
      simp only [selectRound, List.getElem?_cons_succ, h2,
        selectRound_getElem? b rest j hr]

theorem select_multi_get {α : Type} :
    ∀ (sel : List Bool) (table : List α), table.length = 2 ^ sel.length →
      select_multi sel table = table[leVal sel]? := by
  intro sel
  induction sel with
  | nil =>
      intro table h
      simp only [List.length_nil, pow_zero] at h
      rcases List.length_eq_one.mp h with ⟨a, rfl⟩
      simp [select_multi, leVal]
  | cons b rest ih =>
      intro table h
      have hlen : (selectRound b table).length = 2 ^ rest.length := by
        rw [selectRound_length, h]
        simp only [List.length_cons, pow_succ]
        omega
      have hstep : select_multi (b :: rest) table = select_multi rest (selectRound b table) := by
        simp only [select_multi, h, hlen, List.length_cons, if_true, List.foldl_cons]
      rw [hstep, ih (selectRound b table) hlen,
        selectRound_getElem? b table (leVal rest)
          (by
            have := leVal_lt rest
            simp only [h, List.length_cons, pow_succ]
            omega)]
      congr 1
      simp only [leVal]
      omega

theorem select_multi_mismatch {α : Type} (sel : List Bool) (table : List α)
    (h : table.length ≠ 2 ^ sel.length) : select_multi sel table = none := by
  simp [select_multi, h]

/-! ### Incremental table -/

section GroupLemmas

variable {G : Type} [AddCommGroup G]

theorem incFrom_eq (point : G) : ∀ (m : ℕ) (last : G),
    incFrom point last m = (List.range m).map fun j => last + (j + 1) • point := by
  intro m
  induction m with
  | zero => intro last; simp [incFrom]
  | succ m ih =>
      intro last
      rw [List.range_succ_eq_map, List.map_cons, List.map_map]
      simp only [incFrom, ih (last + point)]
      congr 1
      · simp
      · congr 1
        funext j
        simp only [Function.comp_apply, Nat.succ_eq_add_one]
        rw [add_smul (j + 1) 1 point, one_smul, add_comm ((j + 1) • point) point,
          ← add_assoc]

theorem make_incremental_table_length (aux point : G) (w : ℕ) :
    (make_incremental_table aux point w).length = 2 ^ w := by
  have h1 : 0 < 2 ^ w := Nat.pos_pow_of_pos w (by norm_num)
  simp only [make_incremental_table, List.length_cons, incFrom_eq, List.length_map,
    List.length_range]
  omega

theorem make_incremental_table_getElem? (aux point : G) (w i : ℕ) (hi : i < 2 ^ w) :
    (make_incremental_table aux point w)[i]? = some (aux + i • point) := by
  cases i with
  | zero => simp [make_incremental_table]
  | succ i =>
      simp only [make_incremental_table, List.getElem?_cons_succ, incFrom_eq]
      rw [List.getElem?_map, List.getElem?_range (by omega)]
      rfl

theorem select_multi_table (aux point : G) (w : ℕ) (sel : List Bool)
    (hsel : sel.length = w) :
    select_multi sel (make_incremental_table aux point w) =
      some (aux + leVal sel • point) := by
  rw [select_multi_get sel _ (by rw [make_incremental_table_length, hsel]),
    make_incremental_table_getElem? aux point w (leVal sel)
      (by rw [← hsel]; exact leVal_lt sel)]

theorem double_n_eq : ∀ (n : ℕ) (p : G), double_n p n = 2 ^ n • p := by
  intro n
  induction n with
  | zero => intro p; simp [double_n]
  | succ n ih =>
      intro p
      show double_n (double p) n = 2 ^ (n + 1) • p
      rw [ih (double p), double, ← two_nsmul]
      module

theorem ladder_pow (acc addend : G) (w : ℕ) (hw : 0 < w) :
    ladder (double_n acc (w - 1)) addend = 2 ^ w • acc + addend := by
  rw [ladder, double_n_eq, double, ← two_nsmul, smul_smul]
  have h2 : 2 * 2 ^ (w - 1) = 2 ^ w := by
    rw [mul_comm, ← pow_succ]
    congr 1
    omega
  rw [h2]

/-- Value of the sweep's tail fold over the remaining windows. -/
theorem sweep_fold_value (w : ℕ) (hw : 0 < w) (aux point : G) :
    ∀ (sels : List (List Bool)) (acc : G), (∀ sel ∈ sels, sel.length = w) →
      (sels.foldlM
        (fun acc sel =>
          (select_multi sel (make_incremental_table aux point w)).bind
            fun t => some (ladder (double_n acc (w - 1)) t)) acc : Option G) =
      some (2 ^ (w * sels.length) • acc + blindSum w sels.length • aux +
        windowsVal w sels • point) := by
  intro sels
  induction sels with
  | nil =>
      intro acc _
      simp [blindSum, windowsVal]
  | cons sel rest ih =>
      intro acc h
      rw [List.foldlM_cons]
      rw [select_multi_table aux point w sel (h sel (List.mem_cons_self sel rest))]
      simp only [Option.some_bind, Option.pure_def, Option.some_bind,
        Option.bind_eq_bind]
      show (rest.foldlM _ (ladder (double_n acc (w - 1)) (aux + leVal sel • point)) :
        Option G) = _
      rw [ladder_pow acc _ w hw,
        ih _ (fun s hs => h s (List.mem_cons_of_mem sel hs))]
      congr 1
      simp only [windowsVal, blindSum, List.length_cons]
      have hpow : 2 ^ (w * (rest.length + 1)) = 2 ^ (w * rest.length) * 2 ^ w := by
        ring
      rw [hpow]
      module

/-- Value of the whole sweep of `mul` when at least two windows exist. -/
theorem sweep_value (w : ℕ) (hw : 0 < w) (aux point : G)
    (s0 s1 : List Bool) (rest : List (List Bool))
    (hlen : ∀ sel ∈ s0 :: s1 :: rest, sel.length = w) :
    sweep valueOps w (make_incremental_table aux point w) (s0 :: s1 :: rest) =
      some (blindSum w (rest.length + 2) • aux +
        windowsVal w (s0 :: s1 :: rest) • point) := by
  have hs0 : s0.length = w := hlen s0 (by simp)
  have hs1 : s1.length = w := hlen s1 (by simp)
  rw [sweep]
  simp only [List.getElem?_cons_zero, List.getElem?_cons_succ, Option.bind_eq_bind,
    Option.some_bind, List.drop_succ_cons, List.drop_zero, valueOps, Option.pure_def]
  rw [select_multi_table aux point w s0 hs0]
  simp only [Option.some_bind]
  rw [select_multi_table aux point w s1 hs1]
  simp only [Option.some_bind]
  rw [sweep_fold_value w hw aux point rest _
    (fun s hs => hlen s (List.mem_cons_of_mem s0 (List.mem_cons_of_mem s1 hs)))]
  congr 1
  simp only [double_n_eq, windowsVal, blindSum, List.length_cons]
  module

/-! ### Evaluating `mul` -/

theorem nWin_le_one_iff (numBits w : ℕ) (hw : 0 < w) :
    nWin numBits w ≤ 1 ↔ numBits ≤ w := by
  unfold nWin
  constructor
  · intro h
    by_contra hc
    push_neg at hc
    have h2 : 2 * w ≤ numBits + w - 1 := by omega
    have := (Nat.le_div_iff_mul_le hw).mpr h2
    omega
  · intro h
    have : (numBits + w - 1) / w < 2 := (Nat.div_lt_iff_lt_mul hw).mpr (by omega)
    omega

theorem padded_of_decompose (numBits s w : ℕ) (hw : 0 < w) :
    pad numBits (decompose numBits s) w =
      some ((decompose numBits s ++
        List.replicate ((w - numBits % w) % w) false).reverse) := by
  rw [pad_eq numBits _ w hw (decompose_length numBits s), decompose_length]

theorem padded_decompose_length (numBits s w : ℕ) :
    ((decompose numBits s ++
      List.replicate ((w - numBits % w) % w) false).reverse).length =
      numBits + (w - numBits % w) % w := by
  simp [decompose_length]
  omega

theorem beVal_padded (numBits s w : ℕ) (hs : s < 2 ^ numBits) :
    beVal ((decompose numBits s ++
      List.replicate ((w - numBits % w) % w) false).reverse) = s := by
  rw [beVal_reverse, leVal_append, leVal_decompose, leVal_replicate_false,
    Nat.mod_eq_of_lt hs]
  ring

omit [AddCommGroup G] in
theorem sweep_short {A : Type} (ops : SweepOps G A) (w : ℕ) (table : List G) :
    ∀ (windowed : List (List Bool)), windowed.length ≤ 1 →
      sweep ops w table windowed = none
  | [], _ => by simp [sweep]
  | [c], _ => by
      rw [sweep]
      cases hsel : select_multi c table <;>
        simp [hsel]
  | c :: d :: rest, h => by simp at h

/-- When the padded scalar spans at least two windows, `mul` completes and
returns the blinded accumulator value plus `auxToSub`. -/
theorem mul_eval (numBits : ℕ) (point : G) (s w : ℕ) (aA aS : G)
    (hw : 0 < w) (hs : s < 2 ^ numBits) (hn : 2 ≤ nWin numBits w) :
    mul numBits point s w aA aS =
      some (blindSum w (nWin numBits w) • aA + s • point + aS) := by
  have hplen : ((decompose numBits s ++
      List.replicate ((w - numBits % w) % w) false).reverse).length =
      nWin numBits w * w := by
    rw [padded_decompose_length, padded_length numBits w hw, Nat.mul_comm]
  rw [mul, if_pos hw]
  show (pad numBits (decompose numBits s) w).bind _ = _
  rw [padded_of_decompose numBits s w hw]
  simp only [Option.bind_eq_bind, Option.some_bind, Option.some_bind']
  set padded := (decompose numBits s ++
    List.replicate ((w - numBits % w) % w) false).reverse with hpadded
  rw [window_eq_chunks padded w (nWin numBits w) hw hplen]
  simp only [Option.bind_eq_bind, Option.some_bind, Option.some_bind']
  obtain ⟨m, hm⟩ : ∃ m, nWin numBits w = m + 2 := ⟨nWin numBits w - 2, by omega⟩
  have hchunk : chunks w (nWin numBits w) padded =
      (padded.take w).reverse :: ((padded.drop w).take w).reverse ::
        chunks w m ((padded.drop w).drop w) := by
    rw [hm]
    rfl
  have hlen : ∀ sel ∈ chunks w (nWin numBits w) padded, sel.length = w :=
    chunks_mem_length w (nWin numBits w) padded hplen
  rw [hchunk] at hlen ⊢
  rw [sweep_value w hw aA point _ _ _ hlen]
  simp only [Option.bind_eq_bind, Option.some_bind, Option.some_bind']
  rw [chunks_length, ← hm, ← hchunk,
    windowsVal_chunks w (nWin numBits w) padded hplen, hpadded,
    beVal_padded numBits s w hs]
  rfl

/-- When the padded scalar spans at most one window, the sweep's indexing of
the second window panics, so `mul` is fatal. -/
theorem mul_eval_none (numBits : ℕ) (point : G) (s w : ℕ) (aA aS : G)
    (hw : 0 < w) (hn : nWin numBits w ≤ 1) :
    mul numBits point s w aA aS = none := by
  have hplen : ((decompose numBits s ++
      List.replicate ((w - numBits % w) % w) false).reverse).length =
      nWin numBits w * w := by
    rw [padded_decompose_length, padded_length numBits w hw, Nat.mul_comm]
  rw [mul, if_pos hw]
  show (pad numBits (decompose numBits s) w).bind _ = _
  rw [padded_of_decompose numBits s w hw]
  simp only [Option.bind_eq_bind, Option.some_bind, Option.some_bind']
  rw [window_eq_chunks _ w (nWin numBits w) hw hplen]
  simp only [Option.bind_eq_bind, Option.some_bind, Option.some_bind']
  rw [sweep_short valueOps w _ _ (by rw [chunks_length]; exact hn)]
  rfl

/-! ### The sweep's operation trace -/

/-- The trace semantics of the sweep's tail fold runs the value semantics and
appends one `[double_n (w-1), ladder]` block per remaining window. -/
theorem fold_trace_value (w : ℕ) (table : List G) :
    ∀ (sels : List (List Bool)) (a : G) (tr : List Op),
      (sels.foldlM
        (fun acc sel => (select_multi sel table).bind
          fun t => some ((traceOps (G := G)).ladder
            ((traceOps (G := G)).double_n acc (w - 1)) t)) (a, tr) :
        Option (G × List Op)) =
      (sels.foldlM
        (fun acc sel => (select_multi sel table).bind
          fun t => some (ladder (double_n acc (w - 1)) t)) a : Option G).map
        (fun v => (v, tr ++
          (List.replicate sels.length [Op.double_n (w - 1), Op.ladder]).flatten)) := by
  intro sels
  induction sels with
  | nil =>
      intro a tr
      simp
  | cons sel rest ih =>
      intro a tr
      rw [List.foldlM_cons, List.foldlM_cons]
      cases hsel : select_multi sel table with
      | none => simp [hsel]
      | some t =>
          simp only [hsel, Option.some_bind', Option.bind_eq_bind, Option.some_bind]
          rw [ih]
          simp only [traceOps]
          cases hv : (rest.foldlM
            (fun acc sel => (select_multi sel table).bind
              fun t => some (ladder (double_n acc (w - 1)) t))
            (ladder (double_n a (w - 1)) t) : Option G) with
          | none => simp [hv]
          | some v =>
              simp only [hv, Option.map_some', List.replicate_succ, List.flatten_cons,
                List.length_cons, List.append_assoc, List.cons_append, List.nil_append]

/-- The full sweep under the trace semantics: the value component is the
value sweep, and the trace is `double_n w`, `add`, then one
`[double_n (w-1), ladder]` block per remaining window. -/
theorem sweep_trace (w : ℕ) (table : List G) (windowed : List (List Bool))
    (p : G × List Op)
    (h : sweep traceOps w table windowed = some p) :
    p.2 = Op.double_n w :: Op.add ::
        (List.replicate (windowed.length - 2) [Op.double_n (w - 1), Op.ladder]).flatten ∧
      sweep valueOps w table windowed = some p.1 := by
  match windowed with
  | [] => rw [sweep_short traceOps w table [] (by simp)] at h; exact absurd h (by simp)
  | [c] => rw [sweep_short traceOps w table [c] (by simp)] at h; exact absurd h (by simp)
  | c0 :: c1 :: rest =>
      rw [sweep] at h
      rw [sweep]
      simp only [List.getElem?_cons_zero, List.getElem?_cons_succ, Option.bind_eq_bind,
        Option.some_bind, List.drop_succ_cons, List.drop_zero] at h ⊢
      cases hs0 : select_multi c0 table with
      | none => rw [hs0] at h; exact absurd h (by simp)
      | some g0 =>
          rw [hs0] at h
          simp only [Option.some_bind] at h
          cases hs1 : select_multi c1 table with
          | none => rw [hs1] at h; exact absurd h (by simp)
          | some g1 =>
              rw [hs1] at h
              simp only [Option.some_bind, Option.pure_def] at h ⊢
              rw [fold_trace_value w table rest] at h
              simp only [traceOps, valueOps, List.nil_append] at h ⊢
              cases hv : (rest.foldlM
                (fun acc sel => (select_multi sel table).bind
                  fun t => some (ladder (double_n acc (w - 1)) t))
                (double_n g0 w + g1) : Option G) with
              | none => rw [hv] at h; exact absurd h (by simp)
              | some v =>
                  rw [hv] at h
                  simp only [Option.map_some', Option.some_inj] at h
                  subst h
                  simp only [List.length_cons, Nat.add_sub_cancel]
                  constructor
                  · have hlen2 : rest.length + 1 + 1 - 2 = rest.length := by omega
                    simp only [List.length_cons, hlen2, List.cons_append, List.nil_append]
                  · trivial

/-! ### Batched tables -/

theorem make_incremental_table_head (aux point : G) (w : ℕ) :
    (make_incremental_table aux point w).head? = some aux := rfl

/-- The table built for pair `i` is rooted at `2^i` times the running
auxiliary base. -/
theorem buildTables_getElem? (w : ℕ) :
    ∀ (pairs : List (G × ℕ)) (b : G) (i : ℕ) (h : i < pairs.length),
      (buildTables b w pairs)[i]? =
        some (make_incremental_table ((2 ^ i) • b) (pairs.get ⟨i, h⟩).1 w) := by
  intro pairs
  induction pairs with
  | nil => intro b i h; exact absurd h (by simp)
  | cons pr rest ih =>
      intro b i h
      cases i with
      | zero =>
          simp only [buildTables, List.getElem?_cons_zero, pow_zero, one_smul]
          rfl
      | succ i =>
          simp only [buildTables, List.getElem?_cons_succ]
          rw [ih (double b) i (by simpa using h)]
          congr 2
          rw [double, ← two_nsmul, smul_smul, pow_succ]

/-! ### Batched multiplication: per-pair window data -/

end GroupLemmas

section BatchLemmas

variable {G : Type} [AddCommGroup G]

theorem paddedOf_length (numBits w s : ℕ) (hw : 0 < w) :
    (paddedOf numBits w s).length = nWin numBits w * w := by
  unfold paddedOf
  rw [padded_decompose_length, padded_length numBits w hw, Nat.mul_comm]

theorem windowsOf_length (numBits w s : ℕ) :
    (windowsOf numBits w s).length = nWin numBits w := chunks_length w _ _

theorem windowsOf_mem_length (numBits w s : ℕ) (hw : 0 < w) :
    ∀ sel ∈ windowsOf numBits w s, sel.length = w :=
  chunks_mem_length w _ _ (paddedOf_length numBits w s hw)

theorem nWin_pos (numBits w : ℕ) (hnb : 0 < numBits) (hw : 0 < w) :
    0 < nWin numBits w := by
  unfold nWin
  have : 1 * w ≤ numBits + w - 1 := by omega
  have := (Nat.le_div_iff_mul_le hw).mpr this
  omega

theorem windowsOf_getElem? (numBits w s i : ℕ) (hi : i < nWin numBits w) :
    (windowsOf numBits w s)[i]? =
      some ((windowsOf numBits w s).getD i []) := by
  have h : i < (windowsOf numBits w s).length := by rw [windowsOf_length]; exact hi
  rw [List.getElem?_eq_getElem h, List.getD_eq_getElem _ _ h]

theorem windowsOf_getD_length (numBits w s i : ℕ) (hw : 0 < w)
    (hi : i < nWin numBits w) :
    ((windowsOf numBits w s).getD i []).length = w := by
  have h : i < (windowsOf numBits w s).length := by rw [windowsOf_length]; exact hi
  rw [List.getD_eq_getElem _ _ h]
  exact windowsOf_mem_length numBits w s hw _ (List.getElem_mem h)

theorem beVal_paddedOf (numBits w s : ℕ) :
    beVal (paddedOf numBits w s) = s % 2 ^ numBits := by
  unfold paddedOf
  rw [beVal_reverse, leVal_append, leVal_decompose, leVal_replicate_false]
  ring

theorem windowsVal_windowsOf (numBits w s : ℕ) (hw : 0 < w) :
    windowsVal w (windowsOf numBits w s) = s % 2 ^ numBits := by
  unfold windowsOf
  rw [windowsVal_chunks w _ _ (paddedOf_length numBits w s hw), beVal_paddedOf]

end BatchLemmas

section GroupLemmas

variable {G : Type} [AddCommGroup G]


/-! ### Batched multiplication: the two folds -/

/-- The inner per-window fold of `mul_batch_1d_horizontal`: one selection and
plain addition per pair, tables rooted at successively doubled bases. -/
theorem batch_inner_fold (numBits w : ℕ) (hw : 0 < w) (i : ℕ)
    (hi : i < nWin numBits w) :
    ∀ (pairs : List (G × ℕ)) (b acc : G),
      (((buildTables b w pairs).zip
          (pairs.map fun pr => windowsOf numBits w pr.2)).foldlM
        (fun acc tw => (tw.2[i]?).bind
          fun sel => (select_multi sel tw.1).bind fun t => some (acc + t)) acc :
        Option G) = some (acc + rowSum numBits w i b pairs) := by
  intro pairs
  induction pairs with
  | nil =>
      intro b acc
      simp [buildTables, rowSum]
  | cons pr rest ih =>
      intro b acc
      obtain ⟨pt, s⟩ := pr
      simp only [buildTables, List.map_cons, List.zip_cons_cons, List.foldlM_cons]
      rw [windowsOf_getElem? numBits w s i hi]
      simp only [Option.some_bind']
      rw [select_multi_table b pt w _ (windowsOf_getD_length numBits w s i hw hi)]
      simp only [Option.some_bind', Option.bind_eq_bind, Option.some_bind]
      rw [ih (double b) (acc + (b + leVal ((windowsOf numBits w s).getD i []) • pt))]
      simp only [rowSum, winVal, add_assoc]

/-- The outer fold of `mul_batch_1d_horizontal` over the remaining window
indices: `window_size` doublings, then the inner fold. -/
theorem batch_outer_fold (numBits w : ℕ) (hw : 0 < w) (pairs : List (G × ℕ))
    (b : G) :
    ∀ (m a : ℕ), a + m ≤ nWin numBits w → ∀ (acc : G),
      ((List.range' a m).foldlM
        (fun acc i =>
          (((buildTables b w pairs).zip
            (pairs.map fun pr => windowsOf numBits w pr.2)).foldlM
            (fun acc tw => (tw.2[i]?).bind
              fun sel => (select_multi sel tw.1).bind fun t => some (acc + t))
            (double_n acc w) : Option G)) acc : Option G) =
      some (2 ^ (w * m) • acc +
        wSumIdx w (fun j => rowSum numBits w j b pairs) a m) := by
  intro m
  induction m with
  | zero =>
      intro a _ acc
      simp [wSumIdx]
  | succ m ih =>
      intro a h acc
      rw [List.range'_succ, List.foldlM_cons]
      rw [batch_inner_fold numBits w hw a (by omega) pairs b (double_n acc w)]
      simp only [Option.bind_eq_bind, Option.some_bind]
      rw [ih (a + 1) (by omega)]
      congr 1
      rw [double_n_eq]
      simp only [wSumIdx]
      have hpow : 2 ^ (w * (m + 1)) = 2 ^ (w * m) * 2 ^ w := by ring
      rw [hpow]
      module

/-! ### Batched multiplication: summation algebra -/

theorem wSumIdx_zero_fun (w : ℕ) :
    ∀ (m a : ℕ), wSumIdx w (fun _ => (0 : G)) a m = 0 := by
  intro m
  induction m with
  | zero => intro a; rfl
  | succ m ih => intro a; simp [wSumIdx, ih]

theorem wSumIdx_addf (w : ℕ) (S₁ S₂ : ℕ → G) :
    ∀ (m a : ℕ), wSumIdx w (fun j => S₁ j + S₂ j) a m =
      wSumIdx w S₁ a m + wSumIdx w S₂ a m := by
  intro m
  induction m with
  | zero => intro a; simp [wSumIdx]
  | succ m ih =>
      intro a
      simp only [wSumIdx, ih (a + 1)]
      module

theorem wSumIdx_const (w : ℕ) (x : G) :
    ∀ (m a : ℕ), wSumIdx w (fun _ => x) a m = blindSum w m • x := by
  intro m
  induction m with
  | zero => intro a; simp [wSumIdx, blindSum]
  | succ m ih =>
      intro a
      simp only [wSumIdx, blindSum, ih (a + 1)]
      module

theorem wSumIdx_smulf (w : ℕ) (f : ℕ → ℕ) (pt : G) :
    ∀ (m a : ℕ), wSumIdx w (fun j => f j • pt) a m = natWeight w f a m • pt := by
  intro m
  induction m with
  | zero => intro a; simp [wSumIdx, natWeight]
  | succ m ih =>
      intro a
      simp only [wSumIdx, natWeight, ih (a + 1)]
      module

theorem natWeight_winVal (numBits w s : ℕ) (_hw : 0 < w) :
    ∀ (m a : ℕ), a + m = nWin numBits w →
      natWeight w (winVal numBits w s) a m =
        windowsVal w ((windowsOf numBits w s).drop a) := by
  intro m
  induction m with
  | zero =>
      intro a ha
      rw [List.drop_of_length_le (by rw [windowsOf_length]; omega)]
      rfl
  | succ m ih =>
      intro a ha
      have haw : a < (windowsOf numBits w s).length := by rw [windowsOf_length]; omega
      rw [List.drop_eq_getElem_cons haw]
      simp only [natWeight, windowsVal]
      have hdl : ((windowsOf numBits w s).drop (a + 1)).length = m := by
        simp only [List.length_drop, windowsOf_length]
        omega
      rw [hdl, ih (a + 1) (by omega)]
      congr 2
      unfold winVal
      rw [List.getD_eq_getElem _ _ haw]

theorem rowSum_split (numBits w i : ℕ) :
    ∀ (pairs : List (G × ℕ)) (b : G),
      rowSum numBits w i b pairs =
        (2 ^ pairs.length - 1) • b + pairsWinSum numBits w i pairs := by
  intro pairs
  induction pairs with
  | nil => intro b; simp [rowSum, pairsWinSum]
  | cons pr rest ih =>
      intro b
      obtain ⟨pt, s⟩ := pr
      simp only [rowSum, pairsWinSum, List.length_cons]
      rw [ih (double b)]
      simp only [double]
      have h1 : 1 ≤ (2 : ℕ) ^ rest.length := Nat.one_le_two_pow
      have hco : (2 : ℕ) ^ (rest.length + 1) - 1 = 1 + (2 ^ rest.length - 1) * 2 := by
        rw [pow_succ]
        omega
      rw [hco]
      module

theorem wSumIdx_pairs (numBits w : ℕ) (hw : 0 < w) :
    ∀ (pairs : List (G × ℕ)), (∀ pr ∈ pairs, pr.2 < 2 ^ numBits) →
      wSumIdx w (fun j => pairsWinSum numBits w j pairs) 0 (nWin numBits w) =
        (pairs.map fun pr => pr.2 • pr.1).sum := by
  intro pairs
  induction pairs with
  | nil =>
      intro _
      simp only [pairsWinSum, List.map_nil, List.sum_nil]
      exact wSumIdx_zero_fun w _ 0
  | cons pr rest ih =>
      intro hs
      obtain ⟨pt, s⟩ := pr
      simp only [pairsWinSum]
      rw [wSumIdx_addf w (fun j => winVal numBits w s j • pt)
        (fun j => pairsWinSum numBits w j rest),
        wSumIdx_smulf w (winVal numBits w s) pt,
        natWeight_winVal numBits w s hw (nWin numBits w) 0 (by omega),
        List.drop_zero, windowsVal_windowsOf numBits w s hw,
        Nat.mod_eq_of_lt (hs (pt, s) (by simp)),
        ih (fun pr hpr => hs pr (List.mem_cons_of_mem _ hpr))]
      simp

/-! ### Batched multiplication: evaluating the decomposition pipeline -/

omit [AddCommGroup G] in
theorem mapM_pad_decompose (numBits w : ℕ) (hw : 0 < w) :
    ∀ (pairs : List (G × ℕ)),
      ((pairs.map fun pr => decompose numBits pr.2).mapM
        fun bits => pad numBits bits w) =
        some (pairs.map fun pr => paddedOf numBits w pr.2) := by
  intro pairs
  induction pairs with
  | nil => rfl
  | cons pr rest ih =>
      rw [List.map_cons, List.mapM_cons]
      rw [padded_of_decompose numBits pr.2 w hw]
      simp only [Option.bind_eq_bind, Option.some_bind, ih, Option.pure_def]
      rfl

omit [AddCommGroup G] in
theorem mapM_window (numBits w : ℕ) (hw : 0 < w) :
    ∀ (pairs : List (G × ℕ)),
      ((pairs.map fun pr => paddedOf numBits w pr.2).mapM
        fun bits => window bits w) =
        some (pairs.map fun pr => windowsOf numBits w pr.2) := by
  intro pairs
  induction pairs with
  | nil => rfl
  | cons pr rest ih =>
      rw [List.map_cons, List.mapM_cons]
      rw [window_eq_chunks _ w (nWin numBits w) hw (paddedOf_length numBits w pr.2 hw)]
      simp only [Option.bind_eq_bind, Option.some_bind, ih, Option.pure_def]
      rfl

/-- Full evaluation of `mul_batch_1d_horizontal`: the blinded total, before
the final correction by `auxToSub`. -/
theorem mul_batch_eval (numBits w : ℕ) (hnb : 0 < numBits) (hw : 0 < w)
    (pt0 : G) (s0 : ℕ) (rest : List (G × ℕ))
    (hs : ∀ pr ∈ (pt0, s0) :: rest, pr.2 < 2 ^ numBits) (aA aS : G) :
    mul_batch_1d_horizontal numBits ((pt0, s0) :: rest) w aA aS =
      some (blindSum w (nWin numBits w) •
          ((2 ^ ((pt0, s0) :: rest).length - 1) • aA) +
        (((pt0, s0) :: rest).map fun pr => pr.2 • pr.1).sum + aS) := by
  have hn1 : 0 < nWin numBits w := nWin_pos numBits w hnb hw
  rw [mul_batch_1d_horizontal, if_pos ⟨hw, by simp⟩]
  show ((((pt0, s0) :: rest).map fun pr => decompose numBits pr.2).mapM
    fun bits => pad numBits bits w).bind _ = _
  rw [mapM_pad_decompose numBits w hw]
  simp only [Option.bind_eq_bind, Option.some_bind, Option.some_bind']
  rw [mapM_window numBits w hw]
  simp only [Option.bind_eq_bind, Option.some_bind, Option.some_bind',
    List.map_cons, List.getElem?_cons_zero, windowsOf_length, buildTables]
  rw [windowsOf_getElem? numBits w s0 0 hn1]
  simp only [Option.some_bind, Option.some_bind']
  rw [select_multi_table aA pt0 w _
    (windowsOf_getD_length numBits w s0 0 hw hn1)]
  simp only [Option.some_bind, Option.some_bind', List.drop_succ_cons,
    List.drop_zero, Option.pure_def]
  rw [batch_inner_fold numBits w hw 0 hn1 rest (double aA)
    (aA + leVal ((windowsOf numBits w s0).getD 0 []) • pt0)]
  simp only [Option.some_bind, Option.some_bind']
  have hrow0 : (aA + leVal ((windowsOf numBits w s0).getD 0 []) • pt0) +
      rowSum numBits w 0 (double aA) rest =
      rowSum numBits w 0 aA ((pt0, s0) :: rest) := rfl
  rw [hrow0]
  have hzip : (make_incremental_table aA pt0 w ::
      buildTables (double aA) w rest) = buildTables aA w ((pt0, s0) :: rest) := rfl
  have hmap : (windowsOf numBits w s0 ::
      rest.map fun pr => windowsOf numBits w pr.2) =
      ((pt0, s0) :: rest).map fun pr => windowsOf numBits w pr.2 := rfl
  rw [hzip, hmap]
  rw [batch_outer_fold numBits w hw ((pt0, s0) :: rest) aA (nWin numBits w - 1) 1
    (by omega) (rowSum numBits w 0 aA ((pt0, s0) :: rest))]
  simp only [Option.some_bind, Option.some_bind']
  have hsplit : 2 ^ (w * (nWin numBits w - 1)) •
      rowSum numBits w 0 aA ((pt0, s0) :: rest) +
      wSumIdx w (fun j => rowSum numBits w j aA ((pt0, s0) :: rest)) 1
        (nWin numBits w - 1) =
      wSumIdx w (fun j => rowSum numBits w j aA ((pt0, s0) :: rest)) 0
        (nWin numBits w) := by
    obtain ⟨q, hq⟩ : ∃ q, nWin numBits w = q + 1 := ⟨nWin numBits w - 1, by omega⟩
    rw [hq]
    simp only [Nat.add_sub_cancel]
    rfl
  rw [hsplit]
  have hfun : (fun j => rowSum numBits w j aA ((pt0, s0) :: rest)) =
      fun j => (2 ^ ((pt0, s0) :: rest).length - 1) • aA +
        pairsWinSum numBits w j ((pt0, s0) :: rest) :=
    funext fun j => rowSum_split numBits w j ((pt0, s0) :: rest) aA
  rw [hfun,
    wSumIdx_addf w (fun _ => (2 ^ ((pt0, s0) :: rest).length - 1) • aA)
      (fun j => pairsWinSum numBits w j ((pt0, s0) :: rest)),
    wSumIdx_const w ((2 ^ ((pt0, s0) :: rest).length - 1) • aA),
    wSumIdx_pairs numBits w hw ((pt0, s0) :: rest) hs]
  rfl

end GroupLemmas

/-! ## Claim theorems -/

/-- C1: for every curve point `P`, in-range scalar `s`, and window size
`k > 0` for which the call completes, `mul(P, s, k)` returns the plain
(non-blinded) scalar multiple `s·P`, assuming the external primitives
satisfy their stated contracts (the point primitives and `decompose` are
embedded by those contracts, and `haux` is the stated cancellation contract
of `get_mul_aux(k, 1)`). -/
theorem claim_C1_mul_correct {G : Type} [AddCommGroup G] (numBits : ℕ)
    (point : G) (scalar w : ℕ) (auxToAdd auxToSub : G) (r : G)
    (hw : 0 < w) (hs : scalar < 2 ^ numBits)
    (haux : auxToSub = -(blindSum w (nWin numBits w) • auxToAdd))
    (h : mul numBits point scalar w auxToAdd auxToSub = some r) :
    r = scalar • point := by
  rcases le_or_lt (nWin numBits w) 1 with hn | hn
  · rw [mul_eval_none numBits point scalar w _ _ hw hn] at h
    exact absurd h (by simp)
  · rw [mul_eval numBits point scalar w _ _ hw hs hn] at h
    rw [Option.some_inj] at h
    rw [← h, haux]
    abel

/-- Witness for C1 at `numBits = 4`, `P = 3`, `s = 11`, `k = 2` over `ℤ`. -/
theorem claim_C1_witness :
    mul 4 (3 : ℤ) 11 2 5 (-25) = some 33 ∧ (33 : ℤ) = (11 : ℕ) • (3 : ℤ) :=
  ⟨by decide,
   claim_C1_mul_correct 4 3 11 2 5 (-25) 33 (by decide) (by decide) (by decide)
     (by decide)⟩

/-- C2: for every non-empty list of (point, scalar) pairs with in-range
scalars and every window size `k > 0` (and positive scalar bit width),
`mul_batch_1d_horizontal(pairs, k)` completes and returns
`Σ scalar_i • point_i`, assuming the external primitives satisfy their
stated contracts (`haux` is the cancellation contract of
`get_mul_aux(k, pairs.len())`). -/
theorem claim_C2_mul_batch_correct {G : Type} [AddCommGroup G] (numBits : ℕ)
    (pairs : List (G × ℕ)) (w : ℕ) (auxToAdd auxToSub : G)
    (hnb : 0 < numBits) (hw : 0 < w) (hne : pairs ≠ [])
    (hs : ∀ pr ∈ pairs, pr.2 < 2 ^ numBits)
    (haux : auxToSub =
      -((blindSum w (nWin numBits w) * (2 ^ pairs.length - 1)) • auxToAdd)) :
    mul_batch_1d_horizontal numBits pairs w auxToAdd auxToSub =
      some ((pairs.map fun pr => pr.2 • pr.1).sum) := by
  match pairs, hne with
  | (pt0, s0) :: rest, _ =>
      rw [mul_batch_eval numBits w hnb hw pt0 s0 rest hs auxToAdd auxToSub]
      rw [Option.some_inj, haux, smul_smul]
      abel

/-- Witness for C2 at `numBits = 3`, pairs `[(3, 3), (5, 2)]`, `k = 2` over
`ℤ`. -/
theorem claim_C2_witness :
    mul_batch_1d_horizontal 3 [((3 : ℤ), 3), (5, 2)] 2 1 (-15) =
      some (([((3 : ℤ), 3), (5, 2)].map fun pr => pr.2 • pr.1).sum) :=
  claim_C2_mul_batch_correct 3 [((3 : ℤ), 3), (5, 2)] 2 1 (-15) (by decide)
    (by decide) (by decide) (by decide) (by decide)

/-- C9: a zero window size in `mul` or `mul_batch_1d_horizontal`, an empty
batch, or a decomposed bit sequence whose length differs from the scalar
field's bit width, terminates the call fatally (modelled as `none`, the
assertion panic); it is never surfaced as a recoverable returned error —
in the embedding the primitives' recoverable error channel never fires,
so `none` arises only from panics. -/
theorem claim_C9_fatal_asserts {G : Type} [AddCommGroup G] (numBits : ℕ)
    (point : G) (scalar w : ℕ) (aA aS : G) (pairs : List (G × ℕ))
    (bits : List Bool) :
    mul numBits point scalar 0 aA aS = none ∧
    mul_batch_1d_horizontal numBits pairs 0 aA aS = none ∧
    mul_batch_1d_horizontal numBits ([] : List (G × ℕ)) w aA aS = none ∧
    (bits.length ≠ numBits → pad numBits bits w = none) := by
  refine ⟨by simp [mul], by simp [mul_batch_1d_horizontal], by
    simp [mul_batch_1d_horizontal], fun hb => by simp [pad, hb]⟩

/-- Witness for C9: a length-1 bit sequence against `numBits = 4`, and
`mul` at window size `0`. -/
theorem claim_C9_witness :
    pad 4 [true] 2 = none ∧ mul 4 (0 : ℤ) 5 0 1 1 = none :=
  ⟨(claim_C9_fatal_asserts (G := ℤ) 4 0 5 2 1 1 [] [true]).2.2.2 (by decide),
   (claim_C9_fatal_asserts (G := ℤ) 4 0 5 2 1 1 [] [true]).1⟩

/-- C10: `mul` is not total on its stated precondition `window_size > 0`:
whenever the padded decomposition yields fewer than two windows (that is,
`window_size ≥ numBits`), the unconditional indexing of the second window
panics (`none`); and `mul` completes only when the padded bit length spans
at least two windows. -/
theorem claim_C10_mul_totality {G : Type} [AddCommGroup G] (numBits : ℕ)
    (point : G) (scalar w : ℕ) (aA aS : G) :
    (0 < w → numBits ≤ w → mul numBits point scalar w aA aS = none) ∧
    ((mul numBits point scalar w aA aS).isSome → 0 < w ∧ 2 ≤ nWin numBits w) := by
  constructor
  · intro hw hnw
    exact mul_eval_none numBits point scalar w aA aS hw
      ((nWin_le_one_iff numBits w hw).mpr hnw)
  · intro hsome
    have hw : 0 < w := by
      by_contra hc
      have hz : w = 0 := by omega
      rw [hz] at hsome
      simp [mul] at hsome
    refine ⟨hw, ?_⟩
    by_contra hc
    push_neg at hc
    rw [mul_eval_none numBits point scalar w aA aS hw (by omega)] at hsome
    simp at hsome

/-- Witness for C10: `numBits = 2` panics at `w = 2` and completes at
`w = 1`. -/
theorem claim_C10_witness :
    mul 2 (1 : ℤ) 3 2 1 1 = none ∧ (0 < 1 ∧ 2 ≤ nWin 2 1) :=
  ⟨(claim_C10_mul_totality 2 (1 : ℤ) 3 2 1 1).1 (by decide) (by decide),
   (claim_C10_mul_totality 2 (1 : ℤ) 3 1 1 1).2 (by decide)⟩

/-- Index arithmetic for a reversed window slice: entry `j` of the reversed
slice `bits[a .. a+w]` is entry `a + (w - 1 - j)` of `bits`. -/
theorem take_drop_reverse_getD (bits : List Bool) (a w j : ℕ) (hj : j < w)
    (hlen : a + w ≤ bits.length) :
    (((bits.drop a).take w).reverse).getD j false =
      bits.getD (a + (w - 1 - j)) false := by
  have hmin : min w (bits.length - a) = w := by omega
  have htlen : ((bits.drop a).take w).length = w := by
    simp only [List.length_take, List.length_drop]
    omega
  have hj2 : j < (((bits.drop a).take w).reverse).length := by
    rw [List.length_reverse, htlen]
    omega
  have hidx2 : a + (w - 1 - j) < bits.length := by omega
  rw [List.getD_eq_getElem _ _ hj2, List.getD_eq_getElem _ _ hidx2]
  rw [List.getElem_reverse]
  simp only [List.length_take, List.length_drop, hmin]
  rw [List.getElem_take, List.getElem_drop]

/-- C3 counterexample: the claim reads the selector most-significant-bit
first, predicting index `2` (binary `10`) for selector `[true, false]`; the
code selects with the first bit as the least significant bit and returns
entry `1`. -/
theorem claim_C3_counterexample :
    select_multi [true, false] ([0, 1, 2, 3] : List ℤ) ≠
      ([0, 1, 2, 3] : List ℤ)[2]? := by decide

/-- C3 (amended): for a table of size `2^k` and a selector of length `k`,
`select_multi` returns the table entry at the index obtained by reading the
selector bits as a binary number with the FIRST bit as the LEAST significant
bit (`leVal`); the asserted precondition `table.len() == 2^selector.len()`
is fatal (`none`) when violated. -/
theorem claim_C3_select_multi_indexing {α : Type} (selector : List Bool)
    (table : List α) :
    (table.length = 2 ^ selector.length →
      select_multi selector table = table[leVal selector]?) ∧
    (table.length ≠ 2 ^ selector.length → select_multi selector table = none) :=
  ⟨select_multi_get selector table, select_multi_mismatch selector table⟩

/-- Witness for C3 at selector `[true, false]` (value 1 little-endian). -/
theorem claim_C3_witness :
    select_multi [true, false] ([10, 11, 12, 13] : List ℤ) =
      ([10, 11, 12, 13] : List ℤ)[1]? := by
  rw [(claim_C3_select_multi_indexing [true, false]
    ([10, 11, 12, 13] : List ℤ)).1 (by decide)]
  decide

/-- C4 counterexample: on the big-endian input `[true, false]` (one window
of size 2) the claim predicts the Selector `[true, false]` (the window's
bits most-significant-bit first); the code returns the reversed chunk
`[false, true]`. -/
theorem claim_C4_counterexample :
    window [true, false] 2 = some [[false, true]] ∧
      window [true, false] 2 ≠ some [[true, false]] := by decide

/-- C4 (amended): for input length `m * w` (`w > 0`), `window` partitions
the bits into `m` consecutive chunks of `w` bits, most-significant chunk
first, and each resulting Selector holds its window's bits REVERSED
(least-significant-bit first): entry `j` of Selector `i` is input bit
`i*w + (w - 1 - j)`. -/
theorem claim_C4_window_partitions (bits : List Bool) (w m : ℕ) (hw : 0 < w)
    (h : bits.length = m * w) :
    ∃ sels, window bits w = some sels ∧ sels.length = m ∧
      ∀ i j, i < m → j < w →
        (sels.getD i []).getD j false =
          bits.getD (i * w + (w - 1 - j)) false := by
  refine ⟨chunks w m bits, window_eq_chunks bits w m hw h, chunks_length w m bits,
    fun i j hi hj => ?_⟩
  have hchunk : (chunks w m bits)[i]? =
      some (((bits.drop (i * w)).take w).reverse) := chunks_getElem? w m bits i hi
  rw [show (chunks w m bits).getD i [] = ((bits.drop (i * w)).take w).reverse from by
    rw [List.getD_eq_getElem?_getD, hchunk, Option.getD_some]]
  have hmul1 : (i + 1) * w ≤ m * w := Nat.mul_le_mul_right w (by omega)
  have hmul2 : (i + 1) * w = i * w + w := by ring
  exact take_drop_reverse_getD bits (i * w) w j hj (by omega)

/-- Witness for C4 on the 4-bit input `[true, false, true, true]` with
window size 2. -/
theorem claim_C4_witness :
    ∃ sels, window [true, false, true, true] 2 = some sels ∧ sels.length = 2 ∧
      ∀ i j, i < 2 → j < 2 →
        (sels.getD i []).getD j false =
          ([true, false, true, true].getD (i * 2 + (2 - 1 - j)) false) :=
  claim_C4_window_partitions [true, false, true, true] 2 2 (by decide) (by decide)

/-- C5: for a decomposed sequence of the declared bit width, `pad` returns a
sequence of length `window_size * ⌈numBits / window_size⌉` whose value as a
big-endian binary number equals the scalar; a sequence of any other length
is fatal (`none`). -/
theorem claim_C5_pad (numBits scalar w : ℕ) (hw : 0 < w)
    (hs : scalar < 2 ^ numBits) :
    (∃ padded, pad numBits (decompose numBits scalar) w = some padded ∧
      padded.length = w * ((numBits + w - 1) / w) ∧ beVal padded = scalar) ∧
    (∀ bits : List Bool, bits.length ≠ numBits → pad numBits bits w = none) := by
  constructor
  · refine ⟨_, padded_of_decompose numBits scalar w hw, ?_, ?_⟩
    · rw [padded_decompose_length, padded_length numBits w hw]
      rfl
    · exact beVal_padded numBits scalar w hs
  · intro bits hb
    simp [pad, hb]

/-- Witness for C5 at `numBits = 3`, `scalar = 5`, `w = 2` (padding one
zero bit). -/
theorem claim_C5_witness :
    (∃ padded, pad 3 (decompose 3 5) 2 = some padded ∧
      padded.length = 2 * ((3 + 2 - 1) / 2) ∧ beVal padded = 5) ∧
    (∀ bits : List Bool, bits.length ≠ 3 → pad 3 bits 2 = none) :=
  claim_C5_pad 3 5 2 (by decide) (by decide)

/-- C6: `make_incremental_table` returns exactly `2^k` points; entry 0 is
`aux`, entry `i+1` is entry `i` plus `point` (it is built by chained point
additions, never by direct scalar multiplication), hence entry `i` equals
`aux + i·point`. -/
theorem claim_C6_incremental_table {G : Type} [AddCommGroup G]
    (aux point : G) (w : ℕ) :
    (make_incremental_table aux point w).length = 2 ^ w ∧
    (make_incremental_table aux point w)[0]? = some aux ∧
    (∀ i, i + 1 < 2 ^ w →
      (make_incremental_table aux point w)[i + 1]? =
        ((make_incremental_table aux point w)[i]?).map (fun e => e + point)) ∧
    (∀ i, i < 2 ^ w →
      (make_incremental_table aux point w)[i]? = some (aux + i • point)) := by
  refine ⟨make_incremental_table_length aux point w, ?_, fun i hi => ?_, fun i hi =>
    make_incremental_table_getElem? aux point w i hi⟩
  · rw [make_incremental_table_getElem? aux point w 0 (Nat.pos_pow_of_pos w
      (by norm_num))]
    simp
  · rw [make_incremental_table_getElem? aux point w (i + 1) hi,
      make_incremental_table_getElem? aux point w i (by omega)]
    simp only [Option.map_some']
    rw [succ_nsmul, add_assoc]

/-- Witness for C6 at `aux = 5`, `point = 3`, `k = 2` over `ℤ`. -/
theorem claim_C6_witness :
    (make_incremental_table (5 : ℤ) 3 2).length = 2 ^ 2 ∧
      (make_incremental_table (5 : ℤ) 3 2)[3]? = some (5 + (3 : ℕ) • (3 : ℤ)) :=
  ⟨(claim_C6_incremental_table (5 : ℤ) 3 2).1,
   (claim_C6_incremental_table (5 : ℤ) 3 2).2.2.2 3 (by decide)⟩

/-- C7: whenever the sweep of `mul` completes, the sequence of operations
applied to the accumulator is exactly: `double_n window_size` after the
first window's selection, one plain `add` for the second window, and
`double_n (window_size - 1)` followed by one `ladder` for every remaining
window — the asymmetric doubling count, with the accumulator value agreeing
with the value semantics throughout. -/
theorem claim_C7_sweep_schedule {G : Type} [AddCommGroup G] (w : ℕ)
    (table : List G) (windowed : List (List Bool)) (p : G × List Op)
    (h : sweep traceOps w table windowed = some p) :
    p.2 = Op.double_n w :: Op.add ::
        (List.replicate (windowed.length - 2)
          [Op.double_n (w - 1), Op.ladder]).flatten ∧
      sweep valueOps w table windowed = some p.1 :=
  sweep_trace w table windowed p h

/-- Witness for C7: three windows of size 2 over `ℤ`. -/
theorem claim_C7_witness :
    ((6 : ℤ), [Op.double_n 2, Op.add, Op.double_n 1, Op.ladder]).2 =
        Op.double_n 2 :: Op.add ::
          (List.replicate (([[false, false], [true, false], [false, true]] :
            List (List Bool)).length - 2)
            [Op.double_n (2 - 1), Op.ladder]).flatten ∧
      sweep valueOps 2 ([0, 1, 2, 3] : List ℤ)
          [[false, false], [true, false], [false, true]] =
        some ((6 : ℤ), [Op.double_n 2, Op.add, Op.double_n 1, Op.ladder]).1 :=
  claim_C7_sweep_schedule 2 [0, 1, 2, 3]
    [[false, false], [true, false], [false, true]]
    (6, [Op.double_n 2, Op.add, Op.double_n 1, Op.ladder]) (by decide)

/-- C8: in `mul_batch_1d_horizontal`'s table construction, the running
auxiliary base is doubled between consecutive tables, so the table for pair
`i` is `make_incremental_table` rooted at `2^i • aux.to_add` over that
pair's point; in particular entry 0 of table `i` is `2^i • aux.to_add`. -/
theorem claim_C8_batch_table_roots {G : Type} [AddCommGroup G] (w : ℕ)
    (pairs : List (G × ℕ)) (base : G) (i : ℕ) (h : i < pairs.length) :
    (buildTables base w pairs)[i]? =
      some (make_incremental_table ((2 ^ i) • base) (pairs.get ⟨i, h⟩).1 w) ∧
    ((buildTables base w pairs)[i]?).bind List.head? = some ((2 ^ i) • base) := by
  refine ⟨buildTables_getElem? w pairs base i h, ?_⟩
  rw [buildTables_getElem? w pairs base i h]
  simp only [Option.some_bind']
  exact make_incremental_table_head _ _ w

/-- Witness for C8: second pair of a two-pair batch over `ℤ`. -/
theorem claim_C8_witness :
    (buildTables (1 : ℤ) 2 [((3 : ℤ), 5), (7, 2)])[1]? =
        some (make_incremental_table ((2 ^ 1) • (1 : ℤ))
          (([((3 : ℤ), 5), (7, 2)]).get ⟨1, by decide⟩).1 2) ∧
      ((buildTables (1 : ℤ) 2 [((3 : ℤ), 5), (7, 2)])[1]?).bind List.head? =
        some ((2 ^ 1) • (1 : ℤ)) :=
  claim_C8_batch_table_roots 2 [((3 : ℤ), 5), (7, 2)] 1 1 (by decide)

end HaloEcc
